import Mathlib

/-!
Verification of the cleoapp content publishing pipeline.

The data model and operations below are a shallow embedding of the
repository: the web client schemas and WebSocket handler come from
src/web/src/api.ts, the capture-claim predicates from the SQL migrations
(src/api/migrations/006_thumbnail_attempts.sql and 018_processing_leases.sql),
and the credential-refresh logic from the Rust block quoted in
src/api/llm_docs/CODE_COMPLEXITY_REVIEW.md.  The backend claimer loop,
Publish Executor and Thread Sequencer bodies are not part of the repository
snapshot; those are modelled from the spec and marked as such.
-/

namespace Cleo

/-- JSON values as the web client handles them (JSON.parse output fed to the
zod schemas in src/web/src/api.ts).  Numbers are modelled as integers, which
covers every numeric field the publish schemas carry. -/
inductive Json where
  | null : Json
  | bool (b : Bool) : Json
  | num (n : Int) : Json
  | str (s : String) : Json
  | arr (elems : List Json) : Json
  | obj (fields : List (String × Json)) : Json

/-- Field lookup on a JSON object; `none` for a missing key or a non-object. -/
def Json.getField : Json → String → Option Json
  | .obj fields, key => List.lookup key fields
  | _, _ => none

/-- A JSON string value, as z.string() accepts it. -/
def Json.asStr : Json → Option String
  | .str s => some s
  | _ => none

/-- A JSON number value, as z.number() accepts it. -/
def Json.asNum : Json → Option Int
  | .num n => some n
  | _ => none

/-- A JSON array value, as z.array(...) accepts it. -/
def Json.asArr : Json → Option (List Json)
  | .arr elems => some elems
  | _ => none

/-- A nullable string, as z.string().nullable() accepts it: the key must be
present, holding either null or a string. -/
def Json.asNullableStr : Json → Option (Option String)
  | .null => some none
  | .str s => some (some s)
  | _ => none

/-- The five ProgressEvent shapes of the publish WebSocket, exactly the
variants of PublishProgressSchema in src/web/src/api.ts lines 169-177:
uploading(segment, total, percent), processing, posting,
complete(tweet_id, text), error(message). -/
inductive PublishProgress where
  | uploading (segment total percent : Int) : PublishProgress
  | processing : PublishProgress
  | posting : PublishProgress
  | complete (tweet_id text : String) : PublishProgress
  | error (message : String) : PublishProgress
deriving DecidableEq, Repr

/-- PublishProgressSchema.safeParse of src/web/src/api.ts: a discriminated
union on the "type" field; each variant requires its fields present with the
right primitive type, and any other value is rejected. -/
def parsePublishProgress (j : Json) : Option PublishProgress :=
  match j.getField "type" with
  | some (.str "uploading") => do
      let segment ← (j.getField "segment").bind Json.asNum
      let total ← (j.getField "total").bind Json.asNum
      let percent ← (j.getField "percent").bind Json.asNum
      pure (.uploading segment total percent)
  | some (.str "processing") => some .processing
  | some (.str "posting") => some .posting
  | some (.str "complete") => do
      let tweet_id ← (j.getField "tweet_id").bind Json.asStr
      let text ← (j.getField "text").bind Json.asStr
      pure (.complete tweet_id text)
  | some (.str "error") => do
      let message ← (j.getField "message").bind Json.asStr
      pure (.error message)
  | _ => none

/-- The wire encoding of a ProgressEvent: a JSON object with a "type"
discriminant matching the event name, as §6 of the spec fixes it and as the
client schema expects it. -/
def encodeProgress : PublishProgress → Json
  | .uploading segment total percent =>
      .obj [("type", .str "uploading"), ("segment", .num segment),
            ("total", .num total), ("percent", .num percent)]
  | .processing => .obj [("type", .str "processing")]
  | .posting => .obj [("type", .str "posting")]
  | .complete tweet_id text =>
      .obj [("type", .str "complete"), ("tweet_id", .str tweet_id),
            ("text", .str text)]
  | .error message =>
      .obj [("type", .str "error"), ("message", .str message)]

/-- A terminal ProgressEvent: complete or error (§4.3 marks these as the
terminal states of the publish state machine). -/
def isTerminal : PublishProgress → Bool
  | .complete _ _ => true
  | .error _ => true
  | _ => false

/-- One entry of the "tweets" array of PostThreadResponseSchema
(src/web/src/api.ts lines 72-79): the posted tweet's row id, its Twitter id,
and the Twitter id it replied to. -/
structure PostedTweetRef where
  id : Int
  twitter_id : String
  reply_to : Option String
deriving DecidableEq, Repr

/-- PostThreadResponseSchema (src/web/src/api.ts lines 72-79): the single
JSON body the client parses out of POST /threads/:id/publish. -/
structure PostThreadResponse where
  status : String
  tweets : List PostedTweetRef
deriving DecidableEq, Repr

/-- Parse one element of the "tweets" array, per the inner object schema of
PostThreadResponseSchema. -/
def parsePostedTweetRef (j : Json) : Option PostedTweetRef := do
  let id ← (j.getField "id").bind Json.asNum
  let twitter_id ← (j.getField "twitter_id").bind Json.asStr
  let reply_to ← (j.getField "reply_to").bind Json.asNullableStr
  pure ⟨id, twitter_id, reply_to⟩

/-- z.array semantics: every element must parse, else the whole array is
rejected. -/
def parseTweetRefList : List Json → Option (List PostedTweetRef)
  | [] => some []
  | j :: rest => do
      let t ← parsePostedTweetRef j
      let ts ← parseTweetRefList rest
      pure (t :: ts)

/-- PostThreadResponseSchema.parse: requires a "status" string and a
"tweets" array whose every element parses. -/
def parsePostThreadResponse (j : Json) : Option PostThreadResponse := do
  let status ← (j.getField "status").bind Json.asStr
  let elems ← (j.getField "tweets").bind Json.asArr
  let tweets ← parseTweetRefList elems
  pure ⟨status, tweets⟩

/-- The JSON body the thread publish endpoint answers with, element form. -/
def encodePostedTweetRef (t : PostedTweetRef) : Json :=
  .obj [("id", .num t.id), ("twitter_id", .str t.twitter_id),
        ("reply_to", match t.reply_to with | none => .null | some s => .str s)]

/-- The JSON body the thread publish endpoint answers with. -/
def encodePostThreadResponse (r : PostThreadResponse) : Json :=
  .obj [("status", .str r.status),
        ("tweets", .arr (r.tweets.map encodePostedTweetRef))]

theorem parse_encodeProgress (e : PublishProgress) :
    parsePublishProgress (encodeProgress e) = some e := by
  cases e <;> rfl

theorem parse_encodePostedTweetRef (t : PostedTweetRef) :
    parsePostedTweetRef (encodePostedTweetRef t) = some t := by
  obtain ⟨i, tw, rt⟩ := t
  cases rt <;> rfl

theorem parse_encodeTweetRefList (ts : List PostedTweetRef) :
    parseTweetRefList (ts.map encodePostedTweetRef) = some ts := by
  induction ts with
  | nil => rfl
  | cons t rest ih =>
      simp only [List.map, parseTweetRefList, parse_encodePostedTweetRef t,
        Option.bind_eq_bind, Option.some_bind, ih]
      rfl

/-! ### Media Processing Claimer: capture rows and the lease protocol

The captures table columns come from migrations 004, 005 (frames), 006 and
018.  The partial-index WHERE clauses of idx_captures_thumbnails_claim and
idx_captures_frames_claim (018_processing_leases.sql) and of
idx_captures_needs_thumbnail (006_thumbnail_attempts.sql) give the
attempt-capped eligibility predicates.  The claimer's SELECT/UPDATE loop
itself is not in the repository snapshot; the lease clause, the
oldest-captured-first order and the claim-by-conditional-update protocol are
modelled from the spec (§4.1). -/

/-- A captures row, restricted to the media-processing columns of
migrations 004_thumbnails.sql, the frames migration, 006_thumbnail_attempts.sql
and 018_processing_leases.sql.  Timestamps are integers. -/
structure Capture where
  captured_at : Int
  thumbnail_path : Option String
  thumbnail_attempts : Nat
  thumbnail_processing : Bool
  thumbnail_processing_started_at : Option Int
  frames_extracted : Bool
  frame_count : Option Nat
  frame_attempts : Nat
  frames_processing : Bool
  frames_processing_started_at : Option Int
deriving DecidableEq, Repr

/-- The WHERE clause of idx_captures_thumbnails_claim (migration 018) and of
idx_captures_needs_thumbnail (migration 006): thumbnail_path IS NULL AND
thumbnail_attempts < 5. -/
def thumbIndexPred (c : Capture) : Bool :=
  c.thumbnail_path.isNone && decide (c.thumbnail_attempts < 5)

/-- The WHERE clause of idx_captures_frames_claim (migration 018):
frames_extracted = FALSE AND frame_attempts < 5. -/
def frameIndexPred (c : Capture) : Bool :=
  !c.frames_extracted && decide (c.frame_attempts < 5)

/-- Modelled from the spec: a lease is stale when the processing flag is set
and processing_started_at is older than the configured timeout (§4.1).  A
processing row with a NULL started_at counts as stale; migration 018
backfills exactly those rows with a day-old timestamp. -/
def staleLease (timeout now : Int) (processing : Bool) (startedAt : Option Int) : Bool :=
  processing &&
    (match startedAt with
     | none => true
     | some t => decide (t < now - timeout))

/-- Modelled from the spec: eligibility for a thumbnail claim (§4.1) —
thumbnail_path IS NULL AND thumbnail_attempts < 5 AND (thumbnail_processing
= false OR the lease is stale).  The first two conjuncts are the migration
index predicate. -/
def thumbEligible (timeout now : Int) (c : Capture) : Bool :=
  thumbIndexPred c &&
    (!c.thumbnail_processing ||
      staleLease timeout now c.thumbnail_processing c.thumbnail_processing_started_at)

/-- Modelled from the spec: frame-extraction eligibility, symmetric over
frames_extracted and frame_attempts (§4.1). -/
def frameEligible (timeout now : Int) (c : Capture) : Bool :=
  frameIndexPred c &&
    (!c.frames_processing ||
      staleLease timeout now c.frames_processing c.frames_processing_started_at)

/-- Of a candidate and the best row so far, the one captured earlier. -/
def pickOlder (c : Capture) : Option Capture → Capture
  | none => c
  | some b => if c.captured_at < b.captured_at then c else b

/-- Of the rows satisfying the eligibility predicate, the one with the
least captured_at. -/
def selectOldest (elig : Capture → Bool) : List Capture → Option Capture
  | [] => none
  | c :: rest =>
      let best := selectOldest elig rest
      if elig c then some (pickOlder c best) else best

/-- Modelled from the spec: the claimer's selection — among eligible
captures, the oldest by captured_at (ORDER BY captured_at ASC LIMIT 1, the
order idx_captures_thumbnails_claim serves). -/
def selectThumb (timeout now : Int) (cs : List Capture) : Option Capture :=
  selectOldest (thumbEligible timeout now) cs

/-- Modelled from the spec: frame-side selection, symmetric to selectThumb. -/
def selectFrame (timeout now : Int) (cs : List Capture) : Option Capture :=
  selectOldest (frameEligible timeout now) cs

/-- The lease fields of one capture row for one processing kind: the worker
holding the row's lease (none when processing = false) and
processing_started_at.  The owner stands for processing = true plus the
identity of the worker that performed the conditional update. -/
structure LeaseRow where
  owner : Option Nat
  startedAt : Int
deriving DecidableEq, Repr

/-- Modelled from the spec: the claim guard of §4.1 — the row is claimable
when processing = false or the lease is stale (started more than timeout
ago). -/
def rowClaimable (timeout now : Int) (r : LeaseRow) : Bool :=
  r.owner.isNone || decide (r.startedAt < now - timeout)

/-- Modelled from the spec: the atomic conditional update of §4.1 — set
processing = true and processing_started_at = now, guarded by the selection
WHERE clause; `none` models zero rows affected (another worker won). -/
def tryClaim (timeout now : Int) (w : Nat) (r : LeaseRow) : Option LeaseRow :=
  if rowClaimable timeout now r then some ⟨some w, now⟩ else none

/-- A set of workers racing to claim one row at the same instant, in the
serialization order the database's single-row atomic update gives their
updates.  Returns the final row and the workers whose update affected one
row. -/
def claimRace (timeout now : Int) : LeaseRow → List Nat → LeaseRow × List Nat
  | r, [] => (r, [])
  | r, w :: ws =>
      match tryClaim timeout now w r with
      | some r₂ =>
          let done := claimRace timeout now r₂ ws
          (done.1, w :: done.2)
      | none => claimRace timeout now r ws

/-- Worker w holds a non-stale lease on the row at the given instant. -/
def holdsFresh (timeout now : Int) (w : Nat) (r : LeaseRow) : Prop :=
  r.owner = some w ∧ now - timeout ≤ r.startedAt

/-! ### Credential Guard

The token refresh block of api/src/routes/content/twitter/tweets.rs and
threads.rs, as quoted verbatim in
src/api/llm_docs/CODE_COMPLEXITY_REVIEW.md (Finding 3). -/

/-- The stored credential row: access token, optional refresh token,
expiry.  Timestamps are integers standing for Utc instants. -/
structure UserTokens where
  access_token : String
  refresh_token : Option String
  token_expires_at : Int
deriving DecidableEq, Repr

/-- The external platform's refresh_credential answer:
{access_token, refresh_token?, expires_in}. -/
structure RefreshedTokens where
  access_token : String
  refresh_token : Option String
  expires_in : Int
deriving DecidableEq, Repr

/-- The status outcomes the quoted Rust block maps errors to. -/
inductive AuthError where
  | unauthorized : AuthError
  | internalServerError : AuthError
deriving DecidableEq, Repr

/-- The value of the refresh block: the access token to use, or a status
error. -/
inductive TokenResult where
  | ok (access_token : String) : TokenResult
  | err (e : AuthError) : TokenResult
deriving DecidableEq, Repr

/-- The outcome of one ensure_valid run: its value, the credential row as
stored afterwards, and whether the external refresh endpoint was called. -/
structure EnsureResult where
  result : TokenResult
  stored : UserTokens
  calledRefresh : Bool
deriving DecidableEq, Repr

/-- Modelled from the spec: `twitter::update_user_tokens` (its source file
api/src/domain/twitter.rs is not in the repository snapshot).  Persists the
new access token, the rotated refresh token when the platform provided one
(keeping the stored one otherwise), and the new expiry in one transactional
update. -/
def update_user_tokens (stored : UserTokens) (access : String)
    (refresh : Option String) (expires_at : Int) : UserTokens :=
  { access_token := access
    refresh_token := match refresh with | some r => some r | none => stored.refresh_token
    token_expires_at := expires_at }

/-- The token refresh block quoted in
src/api/llm_docs/CODE_COMPLEXITY_REVIEW.md lines 162-193: refresh exactly
when token_expires_at < now; without a refresh token return UNAUTHORIZED; a
failed refresh call maps to UNAUTHORIZED leaving the row untouched; a
successful one persists via update_user_tokens with expiry now + expires_in
and yields the new access token.  `refreshCall` stands for the one
state.twitter.refresh_token network call; the DB write itself succeeding is
assumed (its failure maps to INTERNAL_SERVER_ERROR in the code and is
outside the claim). -/
def ensure_valid (now : Int) (tokens : UserTokens)
    (refreshCall : Except Unit RefreshedTokens) : EnsureResult :=
  if tokens.token_expires_at < now then
    match tokens.refresh_token with
    | some _ =>
        match refreshCall with
        | .error _ => ⟨.err .unauthorized, tokens, true⟩
        | .ok nt =>
            let expires_at := now + nt.expires_in
            ⟨.ok nt.access_token,
             update_user_tokens tokens nt.access_token nt.refresh_token expires_at,
             true⟩
    | none => ⟨.err .unauthorized, tokens, false⟩
  else ⟨.ok tokens.access_token, tokens, false⟩

/-! ### Publish Executor

Modelled from the spec (§4.3): the body of do_publish_with_progress
(api/src/routes/content/twitter/tweets.rs) is not in the repository
snapshot; tweet_collateral's publish bookkeeping columns are the migration
in src/unnamed/part_002. -/

/-- publish_status of tweet_collateral (migration src/unnamed/part_002,
default pending). -/
inductive PubStatus where
  | pending : PubStatus
  | posted : PubStatus
  | failed : PubStatus
deriving DecidableEq, Repr

/-- A tweet_collateral row, restricted to what the Publish Executor reads
and writes: text, how many media items it carries, whether the platform
must transcode them asynchronously, and the publish bookkeeping columns. -/
structure PostRow where
  text : String
  mediaCount : Nat
  needsTranscode : Bool
  publish_status : PubStatus
  tweet_id : Option String
  publish_attempts : Nat
  publish_error : Option String
deriving DecidableEq, Repr

/-- The external platform collaborator (§6): whether ensure_valid yields a
credential, the per-media-item upload outcome, and the create_post
outcome. -/
structure Platform where
  credOk : Bool
  upload : Nat → Except String String
  create : Except String String

/-- Failure bookkeeping of §4.3: publish_status = failed, attempts + 1, the
error message recorded. -/
def failRecord (post : PostRow) (msg : String) : PostRow :=
  { post with
    publish_status := .failed
    publish_attempts := post.publish_attempts + 1
    publish_error := some msg }

/-- The distinct already-posted refusal reason of §4.3's idempotency
guard. -/
def alreadyPostedMsg : String := "Tweet has already been posted"

/-- Modelled from the spec: upload the listed media items in order, emitting
uploading(segment, total, percent) per item; stop at the first item the
platform rejects, returning its message. -/
def uploadAll (up : Nat → Except String String) (total : Nat) :
    List Nat → List PublishProgress × Option String
  | [] => ([], none)
  | k :: rest =>
      match up k with
      | .ok _ =>
          let done := uploadAll up total rest
          (.uploading (Int.ofNat (k + 1)) (Int.ofNat total)
              (100 * Int.ofNat (k + 1) / Int.ofNat total) :: done.1,
           done.2)
      | .error msg => ([], some msg)

/-- What one publish run produced: the ProgressEvent stream, the post row
afterwards, and whether create_post was submitted to the platform. -/
structure PublishResult where
  events : List PublishProgress
  post : PostRow
  submitted : Bool
deriving Repr

/-- Modelled from the spec: Publish Executor.publish (§4.3).  A post already
posted is refused with the distinct already-posted error and nothing is
submitted; otherwise credential check, media uploads with progress, an
optional transcode wait, then create_post, ending in exactly one complete or
error event; failures record failRecord and success records posted status
with the external id. -/
def publish (p : Platform) (post : PostRow) : PublishResult :=
  if post.publish_status = .posted then
    ⟨[.error alreadyPostedMsg], post, false⟩
  else if !p.credOk then
    ⟨[.error "Unauthorized"], failRecord post "Unauthorized", false⟩
  else
    let up := uploadAll p.upload post.mediaCount (List.range post.mediaCount)
    match up.2 with
    | some msg => ⟨up.1 ++ [.error msg], failRecord post msg, false⟩
    | none =>
        let pre := up.1 ++ (if post.needsTranscode then [.processing] else [])
        match p.create with
        | .error msg => ⟨pre ++ [.posting, .error msg], failRecord post msg, true⟩
        | .ok id =>
            ⟨pre ++ [.posting, .complete id post.text],
             { post with
               publish_status := .posted
               tweet_id := some id
               publish_attempts := post.publish_attempts + 1 },
             true⟩

/-! ### Thread Sequencer

Modelled from the spec (§4.4): routes/content/twitter/threads.rs
(post_thread) is not in the repository snapshot; the tweet_threads /
tweet_collateral thread columns are migration 005_threads.sql. -/

/-- tweet_threads.status (migration 005_threads.sql): draft, posting,
posted, partial_failed. -/
inductive ThreadStatus where
  | draft : ThreadStatus
  | posting : ThreadStatus
  | posted : ThreadStatus
  | partial_failed : ThreadStatus
deriving DecidableEq, Repr

/-- A thread member as the sequencer reads it, ordered by thread_position
(the list index is the position): its publish status, its external id once
posted, and the external id it replied to (migration 005: reply_to_tweet_id,
set only after posting). -/
structure Member where
  status : PubStatus
  tweet_id : Option String
  reply_to : Option String
deriving DecidableEq, Repr

/-- What the member loop produced: the member rows afterwards, the
create_post calls it made as (position, reply_to reference passed) in
order, and whether it reached the end without an error. -/
structure SeqResult where
  members : List Member
  calls : List (Nat × Option String)
  ok : Bool
deriving DecidableEq, Repr

/-- Modelled from the spec: the member loop of publish_thread (§4.4) over
the members from position i on, with replyTo the external id of the
previous member.  Members already posted are skipped, their stored external
id becoming the reply-to reference; an attempted member either posts (its
external id feeding the next) or fails, ending the run with the rest
untouched. -/
def seqPublish (o : Nat → Except String String) :
    Nat → Option String → List Member → SeqResult
  | _, _, [] => ⟨[], [], true⟩
  | i, replyTo, m :: rest =>
      if m.status = .posted then
        let done := seqPublish o (i + 1) m.tweet_id rest
        ⟨m :: done.members, done.calls, done.ok⟩
      else
        match o i with
        | .ok id =>
            let done := seqPublish o (i + 1) (some id) rest
            ⟨⟨.posted, some id, replyTo⟩ :: done.members,
             (i, replyTo) :: done.calls, done.ok⟩
        | .error _ =>
            ⟨{ m with status := .failed } :: rest, [(i, replyTo)], false⟩

/-- One thread publish run and the thread status it ends in. -/
structure ThreadRun where
  members : List Member
  calls : List (Nat × Option String)
  status : ThreadStatus
deriving DecidableEq, Repr

/-- Modelled from the spec: post_thread's member phase (§4.4) — run the
member loop from position 0 with no reply-to; if every member ends posted
the thread is posted, otherwise partial_failed. -/
def post_thread (o : Nat → Except String String) (ms : List Member) : ThreadRun :=
  let done := seqPublish o 0 none ms
  ⟨done.members, done.calls, if done.ok then .posted else .partial_failed⟩

/-- The position of the first member not yet posted. -/
def firstUnposted : List Member → Option Nat
  | [] => none
  | m :: rest =>
      if m.status = .posted then (firstUnposted rest).map (· + 1) else some 0

/-- The reply-to reference the first attempted member receives: the stored
external id of the last posted member before the first unposted one,
threaded from acc. -/
def resumeReplyTo (acc : Option String) : List Member → Option String
  | [] => acc
  | m :: rest => if m.status = .posted then resumeReplyTo m.tweet_id rest else acc

/-- Modelled from the spec: the serialization point of §4.4 — a single
atomic conditional update moving a draft or partial_failed thread to
posting, failing closed (zero rows affected, modelled as none) for any
other status, posting included. -/
def tryBeginThreadPublish : ThreadStatus → Option ThreadStatus
  | .draft => some .posting
  | .partial_failed => some .posting
  | _ => none

/-! ### The publish WebSocket client

The ws.onmessage handler of postTweetWithProgress
(src/web/src/api.ts lines 439-489). -/

/-- What reaches the client per WebSocket event: a message whose data
JSON-parsed to a value (none when JSON.parse threw, caught by the handler's
try block), or a connection failure (onerror, or an unclean close). -/
inductive WsInput where
  | message (raw : Option Json) : WsInput
  | connFailure : WsInput

/-- The promise postTweetWithProgress returned: pending, resolved with
{tweet_id, text}, or rejected with a message. -/
inductive PromiseState where
  | pending : PromiseState
  | resolved (tweet_id text : String) : PromiseState
  | rejected (message : String) : PromiseState
deriving DecidableEq, Repr

/-- The client's state: the promise, the progress values handed to the
onProgress callback in order, and whether ws.close() was called. -/
structure WsState where
  promise : PromiseState
  progressLog : List PublishProgress
  closed : Bool
deriving DecidableEq, Repr

/-- The state when the socket opens. -/
def initWs : WsState := ⟨.pending, [], false⟩

/-- The ws.onmessage handler (src/web/src/api.ts lines 454-477): a message
whose data does not JSON.parse is caught and only logged; one that parses
but fails PublishProgressSchema.safeParse returns early; a schema-valid one
is handed to onProgress, and complete or error additionally closes the
socket and settles the promise. -/
def onMessage (st : WsState) (raw : Option Json) : WsState :=
  if st.closed then st
  else
    match raw with
    | none => st
    | some j =>
        match parsePublishProgress j with
        | none => st
        | some msg =>
            let logged : WsState := { st with progressLog := st.progressLog ++ [msg] }
            match msg with
            | .complete id text =>
                { logged with promise := .resolved id text, closed := true }
            | .error m => { logged with promise := .rejected m, closed := true }
            | _ => logged

/-- One client step: onmessage, or the onerror / unclean-onclose rejection
(a settled promise ignores further rejections). -/
def wsStep (st : WsState) : WsInput → WsState
  | .message raw => onMessage st raw
  | .connFailure =>
      if st.closed then st
      else
        { st with
          promise := match st.promise with
            | .pending => .rejected "WebSocket connection failed"
            | s => s
          closed := true }

/-- The client state after a sequence of WebSocket events. -/
def runWs (inputs : List WsInput) : WsState := inputs.foldl wsStep initWs

/-! ### Claimer selection lemmas -/

theorem selectOldest_none (elig : Capture → Bool) (cs : List Capture)
    (h : selectOldest elig cs = none) : ∀ c ∈ cs, elig c = false := by
  induction cs with
  | nil => intro c hc; cases hc
  | cons a rest ih =>
      intro c hc
      by_cases ha : elig a
      · simp [selectOldest, ha] at h
      · simp only [selectOldest, ha, if_neg, Bool.false_eq_true, if_false] at h
        rcases List.mem_cons.mp hc with rfl | hc₂
        · exact Bool.eq_false_iff.mpr ha
        · exact ih h c hc₂

theorem selectOldest_spec (elig : Capture → Bool) (cs : List Capture)
    (c : Capture) (h : selectOldest elig cs = some c) :
    c ∈ cs ∧ elig c = true ∧
      ∀ c₂ ∈ cs, elig c₂ = true → c.captured_at ≤ c₂.captured_at := by
  induction cs generalizing c with
  | nil => cases h
  | cons a rest ih =>
      by_cases ha : elig a
      · simp only [selectOldest, ha, if_true] at h
        rcases hbest : selectOldest elig rest with _ | b
        · rw [hbest] at h
          simp only [pickOlder, Option.some.injEq] at h
          subst h
          refine ⟨List.mem_cons_self _ _, ha, ?_⟩
          intro c₂ hc₂ he₂
          rcases List.mem_cons.mp hc₂ with rfl | hc₃
          · exact le_refl _
          · exact absurd he₂ (by simp [selectOldest_none elig rest hbest c₂ hc₃])
        · rw [hbest] at h
          obtain ⟨hbmem, hbe, hbmin⟩ := ih b hbest
          simp only [pickOlder] at h
          by_cases hab : a.captured_at < b.captured_at
          · rw [if_pos hab] at h
            injection h with h; subst h
            refine ⟨List.mem_cons_self _ _, ha, ?_⟩
            intro c₂ hc₂ he₂
            rcases List.mem_cons.mp hc₂ with rfl | hc₃
            · exact le_refl _
            · exact le_trans (le_of_lt hab) (hbmin c₂ hc₃ he₂)
          · rw [if_neg hab] at h
            injection h with h; subst h
            refine ⟨List.mem_cons_of_mem _ hbmem, hbe, ?_⟩
            intro c₂ hc₂ he₂
            rcases List.mem_cons.mp hc₂ with rfl | hc₃
            · exact le_of_not_lt hab
            · exact hbmin c₂ hc₃ he₂
      · simp only [selectOldest, ha, Bool.false_eq_true, if_false] at h
        obtain ⟨hmem, he, hmin⟩ := ih c h
        refine ⟨List.mem_cons_of_mem _ hmem, he, ?_⟩
        intro c₂ hc₂ he₂
        rcases List.mem_cons.mp hc₂ with rfl | hc₃
        · exact absurd he₂ (by simp [ha])
        · exact hmin c₂ hc₃ he₂

/-- C3: a capture whose attempt counter for a processing kind has reached 5
is ineligible for that kind regardless of its lease state — the migration
index predicates require thumbnail_attempts < 5 respectively
frame_attempts < 5 — so the claimer's selection never returns it again. -/
theorem attempts_cap_permanently_excludes (timeout now : Int) (c : Capture)
    (cs : List Capture) :
    (5 ≤ c.thumbnail_attempts → thumbEligible timeout now c = false)
    ∧ (5 ≤ c.frame_attempts → frameEligible timeout now c = false)
    ∧ (selectThumb timeout now cs = some c → c.thumbnail_attempts < 5)
    ∧ (selectFrame timeout now cs = some c → c.frame_attempts < 5) := by
  have hthumb : 5 ≤ c.thumbnail_attempts → thumbEligible timeout now c = false := by
    intro h
    simp [thumbEligible, thumbIndexPred, Nat.not_lt.mpr h]
  have hframe : 5 ≤ c.frame_attempts → frameEligible timeout now c = false := by
    intro h
    simp [frameEligible, frameIndexPred, Nat.not_lt.mpr h]
  refine ⟨hthumb, hframe, ?_, ?_⟩
  · intro hsel
    by_contra hge
    have he := (selectOldest_spec _ cs c hsel).2.1
    rw [hthumb (Nat.le_of_not_lt hge)] at he
    cases he
  · intro hsel
    by_contra hge
    have he := (selectOldest_spec _ cs c hsel).2.1
    rw [hframe (Nat.le_of_not_lt hge)] at he
    cases he

/-- C8: thumbnail-claim eligibility is exactly thumbnail_path IS NULL AND
thumbnail_attempts < 5 AND (thumbnail_processing = false OR the lease is
stale); frame eligibility is the symmetric predicate over frames_extracted
and frame_attempts; and the claimer selects the oldest eligible capture by
captured_at (oldest-captured-first, not LIFO). -/
theorem claim_eligibility_oldest_first (timeout now : Int) (c : Capture)
    (cs : List Capture) :
    (thumbEligible timeout now c = true ↔
      (c.thumbnail_path = none ∧ c.thumbnail_attempts < 5 ∧
        (c.thumbnail_processing = false ∨
          staleLease timeout now c.thumbnail_processing
            c.thumbnail_processing_started_at = true)))
    ∧ (frameEligible timeout now c = true ↔
      (c.frames_extracted = false ∧ c.frame_attempts < 5 ∧
        (c.frames_processing = false ∨
          staleLease timeout now c.frames_processing
            c.frames_processing_started_at = true)))
    ∧ (selectThumb timeout now cs = some c →
        c ∈ cs ∧ thumbEligible timeout now c = true ∧
          ∀ c₂ ∈ cs, thumbEligible timeout now c₂ = true →
            c.captured_at ≤ c₂.captured_at)
    ∧ (selectFrame timeout now cs = some c →
        c ∈ cs ∧ frameEligible timeout now c = true ∧
          ∀ c₂ ∈ cs, frameEligible timeout now c₂ = true →
            c.captured_at ≤ c₂.captured_at) := by
  refine ⟨?_, ?_, selectOldest_spec _ cs c, selectOldest_spec _ cs c⟩
  · simp [thumbEligible, thumbIndexPred, Option.isNone_iff_eq_none,
      Bool.or_eq_true, Bool.not_eq_true']
    tauto
  · simp [frameEligible, frameIndexPred, Bool.or_eq_true, Bool.not_eq_true']
    tauto

/-! ### Lease claim protocol -/

theorem claimRace_after_fresh_claim (timeout now : Int) (w : Nat)
    (hT : 0 ≤ timeout) (ws : List Nat) :
    claimRace timeout now ⟨some w, now⟩ ws = (⟨some w, now⟩, []) := by
  induction ws with
  | nil => rfl
  | cons v rest ih =>
      have hc : rowClaimable timeout now ⟨some w, now⟩ = false := by
        simp [rowClaimable]
        omega
      simp [claimRace, tryClaim, hc, ih]

theorem claimRace_unclaimable (timeout now : Int) (r : LeaseRow)
    (h : rowClaimable timeout now r = false) (ws : List Nat) :
    claimRace timeout now r ws = (r, []) := by
  induction ws with
  | nil => rfl
  | cons v rest ih => simp [claimRace, tryClaim, h, ih]

/-- C1: at most one worker holds a non-stale lease on a capture row at any
instant.  The lease is acquired only through the conditional update guarded
by the selection clause (it sets processing and the start timestamp and
affects one row, else the worker lost); a fresh lease blocks every other
worker's claim, a stale lease is claimable exactly like an unleased row,
and of any set of workers racing the conditional update at one instant,
exactly the first serialized one wins — none when the row holds a fresh
lease. -/
theorem lease_claim_protocol_exclusive (timeout now : Int) (r r₂ : LeaseRow)
    (w v w₁ w₂ : Nat) (ws : List Nat) :
    (tryClaim timeout now w r = some r₂ →
        rowClaimable timeout now r = true ∧ r₂ = ⟨some w, now⟩)
    ∧ (r.owner = some v → now - timeout ≤ r.startedAt →
        tryClaim timeout now w r = none)
    ∧ (r.startedAt < now - timeout → tryClaim timeout now w r = some ⟨some w, now⟩)
    ∧ (r.owner = none → tryClaim timeout now w r = some ⟨some w, now⟩)
    ∧ (0 ≤ timeout → rowClaimable timeout now r = true →
        (claimRace timeout now r (w :: ws)).2 = [w])
    ∧ (rowClaimable timeout now r = false → (claimRace timeout now r ws).2 = [])
    ∧ (holdsFresh timeout now w₁ r → holdsFresh timeout now w₂ r → w₁ = w₂) := by
  refine ⟨?_, ?_, ?_, ?_, ?_, ?_, ?_⟩
  · intro h
    by_cases hc : rowClaimable timeout now r
    · refine ⟨hc, ?_⟩
      simp only [tryClaim, hc, if_true, Option.some.injEq] at h
      exact h.symm
    · simp [tryClaim, hc] at h
  · intro hown hfresh
    have hc : rowClaimable timeout now r = false := by
      simp [rowClaimable, hown]
      omega
    simp [tryClaim, hc]
  · intro hstale
    have hc : rowClaimable timeout now r = true := by
      simp [rowClaimable]
      omega
    simp [tryClaim, hc]
  · intro hown
    simp [tryClaim, rowClaimable, hown]
  · intro hT hc
    simp [claimRace, tryClaim, hc, claimRace_after_fresh_claim timeout now w hT ws]
  · intro hc
    simp [claimRace_unclaimable timeout now r hc ws]
  · rintro ⟨h₁, -⟩ ⟨h₂, -⟩
    rw [h₁] at h₂
    injection h₂

/-! ### Thread publish serialization -/

/-- C7: publish_thread starts only from draft or partial_failed; the
serialization point is the atomic conditional transition to posting, which
fails closed once the status is posting, so a second concurrent publish of
the same thread always loses. -/
theorem thread_publish_serialization (s s₂ : ThreadStatus) :
    ((tryBeginThreadPublish s).isSome ↔ (s = .draft ∨ s = .partial_failed))
    ∧ (tryBeginThreadPublish s = some s₂ →
        s₂ = .posting ∧ tryBeginThreadPublish s₂ = none) := by
  constructor
  · cases s <;> simp [tryBeginThreadPublish]
  · intro h
    cases s
    case draft =>
      injection h with h₂
      subst h₂
      exact ⟨rfl, rfl⟩
    case partial_failed =>
      injection h with h₂
      subst h₂
      exact ⟨rfl, rfl⟩
    case posting => simp [tryBeginThreadPublish] at h
    case posted => simp [tryBeginThreadPublish] at h

/-! ### Credential guard -/

/-- C4 counterexample: with the stored expiry equal to the current instant —
so not in the future — and no refresh token stored, ensure_valid does not
fail with Unauthorized as the claim requires: the quoted code refreshes only
when token_expires_at < now, so it returns the stored token untouched. -/
theorem ensure_valid_boundary_counterexample :
    (⟨"tok", none, 0⟩ : UserTokens).token_expires_at = 0 ∧ ¬ ((0 : Int) < 0)
    ∧ (⟨"tok", none, 0⟩ : UserTokens).refresh_token = none
    ∧ ensure_valid 0 ⟨"tok", none, 0⟩ (.error ()) =
        ⟨.ok "tok", ⟨"tok", none, 0⟩, false⟩ := by
  exact ⟨rfl, by decide, rfl, rfl⟩

/-- C4 (amended): with the boundary as the code draws it — the stored token
is returned unchanged, with no refresh call and no state mutation, whenever
the stored expiry is at or after now; when the expiry is strictly in the
past, the call fails Unauthorized if no refresh token is stored, fails
Unauthorized leaving the stored credential untouched when the refresh call
fails, and on a successful refresh persists the new access token, the
rotated refresh token if provided, and the new expiry in one update,
returning the new access token. -/
theorem ensure_valid_refresh_behavior (now : Int) (t : UserTokens)
    (r : Except Unit RefreshedTokens) (nt : RefreshedTokens) :
    (now ≤ t.token_expires_at →
        ensure_valid now t r = ⟨.ok t.access_token, t, false⟩)
    ∧ (t.token_expires_at < now → t.refresh_token = none →
        ensure_valid now t r = ⟨.err .unauthorized, t, false⟩)
    ∧ (t.token_expires_at < now → t.refresh_token.isSome → r = .error () →
        ensure_valid now t r = ⟨.err .unauthorized, t, true⟩)
    ∧ (t.token_expires_at < now → t.refresh_token.isSome → r = .ok nt →
        (ensure_valid now t r).result = .ok nt.access_token
        ∧ (ensure_valid now t r).calledRefresh = true
        ∧ (ensure_valid now t r).stored.access_token = nt.access_token
        ∧ (ensure_valid now t r).stored.token_expires_at = now + nt.expires_in
        ∧ (∀ rt, nt.refresh_token = some rt →
            (ensure_valid now t r).stored.refresh_token = some rt)) := by
  refine ⟨?_, ?_, ?_, ?_⟩
  · intro h
    simp [ensure_valid, Int.not_lt.mpr h]
  · intro h hnone
    simp [ensure_valid, h, hnone]
  · intro h hsome hr
    obtain ⟨rt, hrt⟩ := Option.isSome_iff_exists.mp hsome
    simp [ensure_valid, h, hrt, hr]
  · intro h hsome hr
    obtain ⟨rt, hrt⟩ := Option.isSome_iff_exists.mp hsome
    refine ⟨?_, ?_, ?_, ?_, ?_⟩ <;>
      simp [ensure_valid, h, hrt, hr, update_user_tokens]
    intro rt₂ hrt₂
    simp [hrt₂]

/-! ### Publish Executor: idempotency guard -/

/-- C5: publishing a post whose publish_status is already posted always
refuses: the stream is exactly one error event carrying the distinct
already-posted reason (never a silent no-op), the row is untouched, and
nothing is submitted to the platform — conversely anything submitted to the
platform came from a post that was not posted. -/
theorem publish_already_posted_guard (p : Platform) (post : PostRow) :
    (post.publish_status = .posted →
        publish p post = ⟨[.error alreadyPostedMsg], post, false⟩)
    ∧ ((publish p post).submitted = true → post.publish_status ≠ .posted) := by
  constructor
  · intro h
    simp [publish, h]
  · intro hsub h
    rw [show publish p post = ⟨[.error alreadyPostedMsg], post, false⟩ by
      simp [publish, h]] at hsub
    cases hsub

/-! ### Thread publish response shape -/

/-- C9 counterexample: the client parses the body of
POST /threads/:id/publish with PostThreadResponseSchema, which rejects
every one of the five ProgressEvent wire shapes — so publish_thread's
callers receive no ProgressEvent stream — while a ProgressEvent parser in
turn rejects the aggregate thread response.  The thread publish channel
carries a single aggregate response, not progress events. -/
theorem post_thread_response_not_progress_stream :
    parsePostThreadResponse (encodeProgress (.uploading 1 2 50)) = none
    ∧ parsePostThreadResponse (encodeProgress .processing) = none
    ∧ parsePostThreadResponse (encodeProgress .posting) = none
    ∧ parsePostThreadResponse (encodeProgress (.complete "abc123" "hello")) = none
    ∧ parsePostThreadResponse (encodeProgress (.error "boom")) = none
    ∧ parsePublishProgress
        (encodePostThreadResponse ⟨"posted", [⟨1, "abc123", none⟩]⟩) = none := by
  exact ⟨rfl, rfl, rfl, rfl, rfl, rfl⟩

/-- C9 (amended): publish_thread answers its caller with one aggregate
PostThreadResponse — a status plus the list of posted tweets with their
external ids and reply-to references — delivered as a single JSON body
after the thread publish finishes; per-member ProgressEvents are not
delivered on this channel (the progress WebSocket exists only for a single
tweet's publish).  The aggregate body round-trips through the client's
PostThreadResponseSchema and is never a ProgressEvent. -/
theorem post_thread_single_aggregate_response (r : PostThreadResponse) :
    parsePostThreadResponse (encodePostThreadResponse r) = some r
    ∧ parsePublishProgress (encodePostThreadResponse r) = none := by
  constructor
  · obtain ⟨status, tweets⟩ := r
    have h₁ : (encodePostThreadResponse ⟨status, tweets⟩).getField "status" =
        some (.str status) := rfl
    have h₂ : (encodePostThreadResponse ⟨status, tweets⟩).getField "tweets" =
        some (.arr (tweets.map encodePostedTweetRef)) := rfl
    simp only [parsePostThreadResponse, h₁, h₂, Json.asStr, Json.asArr,
      Option.bind_eq_bind, Option.some_bind, parse_encodeTweetRefList]
    rfl
  · rfl

/-! ### Progress stream shape -/

theorem uploadAll_events_nonterminal (up : Nat → Except String String)
    (total : Nat) (ks : List Nat) :
    (uploadAll up total ks).1.all (fun e => !isTerminal e) = true := by
  induction ks with
  | nil => rfl
  | cons k rest ih =>
      cases h : up k with
      | ok handle =>
          simp only [uploadAll, h, List.all_cons, ih, Bool.and_true]
          rfl
      | error msg => simp [uploadAll, h]

theorem all_parse_encode (evs : List PublishProgress) :
    evs.all (fun e => decide (parsePublishProgress (encodeProgress e) = some e))
      = true := by
  induction evs with
  | nil => rfl
  | cons e rest ih => simp [List.all_cons, parse_encodeProgress, ih]

/-- C6: every event a publish run delivers on the Progress Channel is one
of exactly the five schema shapes — it round-trips through the client's
PublishProgressSchema wire format — and the stream is a possibly empty run
of non-terminal events closed by exactly one terminal event (a single
complete or a single error) with nothing after it. -/
theorem publish_progress_stream_shape (p : Platform) (post : PostRow) :
    ((publish p post).events.all
        (fun e => decide (parsePublishProgress (encodeProgress e) = some e))
      = true)
    ∧ ∃ pre t, (publish p post).events = pre ++ [t]
        ∧ isTerminal t = true
        ∧ pre.all (fun e => !isTerminal e) = true := by
  refine ⟨all_parse_encode _, ?_⟩
  by_cases hp : post.publish_status = .posted
  · exact ⟨[], .error alreadyPostedMsg, by simp [publish, hp], rfl, rfl⟩
  by_cases hcred : p.credOk = false
  · exact ⟨[], .error "Unauthorized", by simp [publish, hp, hcred], rfl, rfl⟩
  have hcred₂ : p.credOk = true := by
    cases h : p.credOk
    · exact absurd h hcred
    · rfl
  have hup := uploadAll_events_nonterminal p.upload post.mediaCount
    (List.range post.mediaCount)
  cases hfail : (uploadAll p.upload post.mediaCount (List.range post.mediaCount)).2 with
  | some msg =>
      refine ⟨(uploadAll p.upload post.mediaCount (List.range post.mediaCount)).1,
        .error msg, by simp [publish, hp, hcred₂, hfail], rfl, hup⟩
  | none =>
      have hproc : ((if post.needsTranscode then [PublishProgress.processing]
          else []).all (fun e => !isTerminal e)) = true := by
        cases post.needsTranscode <;> rfl
      have hpre : ((uploadAll p.upload post.mediaCount (List.range post.mediaCount)).1
          ++ ((if post.needsTranscode then [PublishProgress.processing] else [])
            ++ [PublishProgress.posting])).all (fun e => !isTerminal e) = true := by
        simp only [List.all_append, hup, hproc, Bool.true_and]
        rfl
      cases hc : p.create with
      | error msg =>
          refine ⟨(uploadAll p.upload post.mediaCount (List.range post.mediaCount)).1
            ++ ((if post.needsTranscode then [PublishProgress.processing] else [])
              ++ [PublishProgress.posting]),
            .error msg, ?_, rfl, hpre⟩
          simp [publish, hp, hcred₂, hfail, hc, List.append_assoc]
      | ok id =>
          refine ⟨(uploadAll p.upload post.mediaCount (List.range post.mediaCount)).1
            ++ ((if post.needsTranscode then [PublishProgress.processing] else [])
              ++ [PublishProgress.posting]),
            .complete id post.text, ?_, rfl, hpre⟩
          simp [publish, hp, hcred₂, hfail, hc, List.append_assoc]

/-! ### WebSocket client -/

theorem wsStep_settles_only_on_terminal (st : WsState) (x : WsInput)
    (hpend : st.promise = .pending)
    (hset : (wsStep st x).promise ≠ .pending) :
    x = .connFailure ∨
      ∃ j e, x = .message (some j) ∧ parsePublishProgress j = some e ∧
        isTerminal e = true := by
  cases x with
  | connFailure => exact Or.inl rfl
  | message raw =>
      refine Or.inr ?_
      by_cases hcl : st.closed
      · exact absurd (by simp [wsStep, onMessage, hcl, hpend]) hset
      cases raw with
      | none => exact absurd (by simp [wsStep, onMessage, hcl, hpend]) hset
      | some j =>
          cases hparse : parsePublishProgress j with
          | none => exact absurd (by simp [wsStep, onMessage, hcl, hparse, hpend]) hset
          | some msg =>
              cases msg with
              | uploading s t pc =>
                  exact absurd (by simp [wsStep, onMessage, hcl, hparse, hpend]) hset
              | processing =>
                  exact absurd (by simp [wsStep, onMessage, hcl, hparse, hpend]) hset
              | posting =>
                  exact absurd (by simp [wsStep, onMessage, hcl, hparse, hpend]) hset
              | complete id text => exact ⟨j, .complete id text, rfl, hparse, rfl⟩
              | error m => exact ⟨j, .error m, rfl, hparse, rfl⟩

theorem foldl_wsStep_settles (inputs : List WsInput) (st : WsState)
    (hset : (inputs.foldl wsStep st).promise ≠ .pending) :
    st.promise ≠ .pending ∨ WsInput.connFailure ∈ inputs ∨
      ∃ j e, WsInput.message (some j) ∈ inputs ∧
        parsePublishProgress j = some e ∧ isTerminal e = true := by
  induction inputs generalizing st with
  | nil => exact Or.inl hset
  | cons x rest ih =>
      rcases ih (wsStep st x) hset with hstep | hconn | ⟨j, e, hmem, hparse, hterm⟩
      · by_cases hpend : st.promise = .pending
        · rcases wsStep_settles_only_on_terminal st x hpend hstep with rfl | ⟨j, e, rfl, hp, ht⟩
          · exact Or.inr (Or.inl (List.mem_cons_self _ _))
          · exact Or.inr (Or.inr ⟨j, e, List.mem_cons_self _ _, hp, ht⟩)
        · exact Or.inl hpend
      · exact Or.inr (Or.inl (List.mem_cons_of_mem _ hconn))
      · exact Or.inr (Or.inr ⟨j, e, List.mem_cons_of_mem _ hmem, hparse, hterm⟩)

/-- C10: a publish WebSocket message that fails to parse as one of the five
ProgressEvent shapes is silently dropped — the handler leaves the client
state, the progress callback log and the promise untouched, for an
unparseable payload as well as for a schema-invalid one — and the promise of
postTweetWithProgress leaves pending only on a schema-valid complete or
error event or on a connection failure, never on a malformed message. -/
theorem ws_client_drops_malformed_messages (st : WsState) (j : Json)
    (inputs : List WsInput) :
    (onMessage st none = st)
    ∧ (parsePublishProgress j = none → onMessage st (some j) = st)
    ∧ ((runWs inputs).promise ≠ .pending →
        WsInput.connFailure ∈ inputs ∨
          ∃ j₂ e, WsInput.message (some j₂) ∈ inputs ∧
            parsePublishProgress j₂ = some e ∧ isTerminal e = true) := by
  refine ⟨?_, ?_, ?_⟩
  · by_cases hcl : st.closed <;> simp [onMessage, hcl]
  · intro hparse
    by_cases hcl : st.closed <;> simp [onMessage, hcl, hparse]
  · intro hset
    rcases foldl_wsStep_settles inputs initWs hset with hinit | h
    · exact absurd rfl hinit
    · exact h

/-! ### Thread Sequencer lemmas -/

theorem seqPublish_cons_posted (o : Nat → Except String String) (i : Nat)
    (rt : Option String) (m : Member) (rest : List Member)
    (hm : m.status = .posted) :
    seqPublish o i rt (m :: rest) =
      ⟨m :: (seqPublish o (i + 1) m.tweet_id rest).members,
       (seqPublish o (i + 1) m.tweet_id rest).calls,
       (seqPublish o (i + 1) m.tweet_id rest).ok⟩ := by
  simp [seqPublish, hm]

theorem seqPublish_cons_ok (o : Nat → Except String String) (i : Nat)
    (rt : Option String) (m : Member) (rest : List Member) (id : String)
    (hm : ¬ m.status = .posted) (ho : o i = .ok id) :
    seqPublish o i rt (m :: rest) =
      ⟨⟨.posted, some id, rt⟩ :: (seqPublish o (i + 1) (some id) rest).members,
       (i, rt) :: (seqPublish o (i + 1) (some id) rest).calls,
       (seqPublish o (i + 1) (some id) rest).ok⟩ := by
  simp [seqPublish, hm, ho]

theorem seqPublish_cons_error (o : Nat → Except String String) (i : Nat)
    (rt : Option String) (m : Member) (rest : List Member) (msg : String)
    (hm : ¬ m.status = .posted) (ho : o i = .error msg) :
    seqPublish o i rt (m :: rest) =
      ⟨{ m with status := .failed } :: rest, [(i, rt)], false⟩ := by
  simp [seqPublish, hm, ho]

theorem seqPublish_calls_shape (o : Nat → Except String String)
    (ms : List Member) : ∀ (i : Nat) (rt : Option String) (p : Nat)
    (q : Option String), (p, q) ∈ (seqPublish o i rt ms).calls →
      ∃ k m, ms[k]? = some m ∧ ¬ m.status = .posted ∧ p = i + k := by
  induction ms with
  | nil => intro i rt p q h; cases h
  | cons m rest ih =>
      intro i rt p q h
      by_cases hm : m.status = .posted
      · rw [seqPublish_cons_posted o i rt m rest hm] at h
        obtain ⟨k, m₂, hk, hs, hp⟩ := ih (i + 1) m.tweet_id p q h
        exact ⟨k + 1, m₂, by simpa using hk, hs, by omega⟩
      · cases ho : o i with
        | ok id =>
            rw [seqPublish_cons_ok o i rt m rest id hm ho] at h
            rcases List.mem_cons.mp h with heq | hmem
            · obtain ⟨hp, hq⟩ := Prod.mk.injEq _ _ _ _ ▸ heq
              exact ⟨0, m, by simp, hm, by omega⟩
            · obtain ⟨k, m₂, hk, hs, hp⟩ := ih (i + 1) (some id) p q hmem
              exact ⟨k + 1, m₂, by simpa using hk, hs, by omega⟩
        | error msg =>
            rw [seqPublish_cons_error o i rt m rest msg hm ho] at h
            rcases List.mem_cons.mp h with heq | hmem
            · obtain ⟨hp, hq⟩ := Prod.mk.injEq _ _ _ _ ▸ heq
              exact ⟨0, m, by simp, hm, by omega⟩
            · cases hmem

theorem seqPublish_calls_lb_sorted (o : Nat → Except String String)
    (ms : List Member) : ∀ (i : Nat) (rt : Option String),
    (∀ p ∈ ((seqPublish o i rt ms).calls.map Prod.fst), i ≤ p) ∧
      List.Chain' (· < ·) ((seqPublish o i rt ms).calls.map Prod.fst) := by
  induction ms with
  | nil =>
      intro i rt
      refine ⟨?_, ?_⟩
      · intro p hp
        cases hp
      · exact List.chain'_nil
  | cons m rest ih =>
      intro i rt
      by_cases hm : m.status = .posted
      · rw [seqPublish_cons_posted o i rt m rest hm]
        obtain ⟨hlb, hch⟩ := ih (i + 1) m.tweet_id
        exact ⟨fun p hp => by have := hlb p hp; omega, hch⟩
      · cases ho : o i with
        | ok id =>
            rw [seqPublish_cons_ok o i rt m rest id hm ho]
            obtain ⟨hlb, hch⟩ := ih (i + 1) (some id)
            refine ⟨?_, ?_⟩
            · intro p hp
              simp only [List.map_cons] at hp
              rcases List.mem_cons.mp hp with rfl | hp₂
              · exact le_refl _
              · have := hlb p hp₂; omega
            · simp only [List.map_cons]
              refine List.chain'_cons'.mpr ⟨?_, hch⟩
              intro y hy
              have := hlb y (List.mem_of_mem_head? hy)
              omega
        | error msg =>
            rw [seqPublish_cons_error o i rt m rest msg hm ho]
            refine ⟨?_, ?_⟩
            · intro p hp
              simp only [List.map_cons, List.map_nil] at hp
              rcases List.mem_cons.mp hp with rfl | hp₂
              · exact le_refl _
              · cases hp₂
            · simp

theorem seqPublish_head_call (o : Nat → Except String String)
    (ms : List Member) : ∀ (i : Nat) (rt : Option String),
    (seqPublish o i rt ms).calls.head? =
      (firstUnposted ms).map (fun k => (i + k, resumeReplyTo rt ms)) := by
  induction ms with
  | nil => intro i rt; rfl
  | cons m rest ih =>
      intro i rt
      by_cases hm : m.status = .posted
      · rw [seqPublish_cons_posted o i rt m rest hm]
        show (seqPublish o (i + 1) m.tweet_id rest).calls.head? = _
        rw [ih (i + 1) m.tweet_id]
        simp only [firstUnposted, resumeReplyTo, hm, if_pos]
        cases hfu : firstUnposted rest with
        | none => rfl
        | some k =>
            simp only [Option.map_some, Option.map_map]
            have harith : i + 1 + k = i + (k + 1) := by omega
            simp [Function.comp, harith]
      · cases ho : o i with
        | ok id =>
            rw [seqPublish_cons_ok o i rt m rest id hm ho]
            simp [firstUnposted, resumeReplyTo, hm]
        | error msg =>
            rw [seqPublish_cons_error o i rt m rest msg hm ho]
            simp [firstUnposted, resumeReplyTo, hm]

theorem seqPublish_stop_on_error (o : Nat → Except String String)
    (ms : List Member) : ∀ (i : Nat) (rt : Option String) (p : Nat)
    (q : Option String) (msg : String),
    (p, q) ∈ (seqPublish o i rt ms).calls → o p = .error msg →
      (seqPublish o i rt ms).ok = false ∧
        ∀ p₂ ∈ ((seqPublish o i rt ms).calls.map Prod.fst), p₂ ≤ p := by
  induction ms with
  | nil => intro i rt p q msg h _; cases h
  | cons m rest ih =>
      intro i rt p q msg hmem herr
      by_cases hm : m.status = .posted
      · rw [seqPublish_cons_posted o i rt m rest hm] at hmem ⊢
        exact ih (i + 1) m.tweet_id p q msg hmem herr
      · cases ho : o i with
        | ok id =>
            rw [seqPublish_cons_ok o i rt m rest id hm ho] at hmem ⊢
            rcases List.mem_cons.mp hmem with heq | hmem₂
            · obtain ⟨hp, hq⟩ := Prod.mk.injEq _ _ _ _ ▸ heq
              rw [hp] at herr
              rw [herr] at ho
              cases ho
            · obtain ⟨hok, hle⟩ := ih (i + 1) (some id) p q msg hmem₂ herr
              have hip : i + 1 ≤ p :=
                (seqPublish_calls_lb_sorted o rest (i + 1) (some id)).1 p
                  (List.mem_map_of_mem Prod.fst hmem₂)
              refine ⟨hok, ?_⟩
              intro p₂ hp₂
              simp only [List.map_cons] at hp₂
              rcases List.mem_cons.mp hp₂ with rfl | hp₃
              · omega
              · exact hle p₂ hp₃
        | error msg₂ =>
            rw [seqPublish_cons_error o i rt m rest msg₂ hm ho] at hmem ⊢
            rcases List.mem_cons.mp hmem with heq | hmem₂
            · obtain ⟨hp, hq⟩ := Prod.mk.injEq _ _ _ _ ▸ heq
              subst hp
              refine ⟨rfl, ?_⟩
              intro p₂ hp₂
              simp only [List.map_cons, List.map_nil] at hp₂
              rcases List.mem_cons.mp hp₂ with rfl | hp₃
              · exact le_refl _
              · cases hp₃
            · cases hmem₂

theorem seqPublish_call_replyTo (o : Nat → Except String String)
    (ms : List Member) : ∀ (i : Nat) (rt : Option String) (k : Nat)
    (q : Option String), (i + k, q) ∈ (seqPublish o i rt ms).calls →
      (k = 0 → q = rt) ∧
        ∀ k₂, k = k₂ + 1 →
          ∃ m, (seqPublish o i rt ms).members[k₂]? = some m ∧ q = m.tweet_id := by
  induction ms with
  | nil => intro i rt k q h; cases h
  | cons m rest ih =>
      intro i rt k q hmem
      by_cases hm : m.status = .posted
      · rw [seqPublish_cons_posted o i rt m rest hm] at hmem ⊢
        have hlb : i + 1 ≤ i + k :=
          (seqPublish_calls_lb_sorted o rest (i + 1) m.tweet_id).1 _
            (List.mem_map_of_mem Prod.fst hmem)
        obtain ⟨k₁, rfl⟩ : ∃ k₁, k = k₁ + 1 := ⟨k - 1, by omega⟩
        have hmem₂ : ((i + 1) + k₁, q) ∈
            (seqPublish o (i + 1) m.tweet_id rest).calls := by
          have harith : i + (k₁ + 1) = (i + 1) + k₁ := by omega
          rwa [harith] at hmem
        obtain ⟨hz, hs⟩ := ih (i + 1) m.tweet_id k₁ q hmem₂
        refine ⟨fun h0 => absurd h0 (by omega), ?_⟩
        intro k₂ hk
        have hkk : k₂ = k₁ := by omega
        subst hkk
        cases k₂ with
        | zero => exact ⟨m, by simp, hz rfl⟩
        | succ k₃ =>
            obtain ⟨m₂, hm₂, hq⟩ := hs k₃ rfl
            exact ⟨m₂, by simpa using hm₂, hq⟩
      · cases ho : o i with
        | ok id =>
            rw [seqPublish_cons_ok o i rt m rest id hm ho] at hmem ⊢
            rcases List.mem_cons.mp hmem with heq | hmem₂
            · obtain ⟨hp, hq⟩ := Prod.mk.injEq _ _ _ _ ▸ heq
              have hk0 : k = 0 := by omega
              subst hk0
              exact ⟨fun _ => hq, fun k₂ hk => absurd hk (by omega)⟩
            · have hlb : i + 1 ≤ i + k :=
                (seqPublish_calls_lb_sorted o rest (i + 1) (some id)).1 _
                  (List.mem_map_of_mem Prod.fst hmem₂)
              obtain ⟨k₁, rfl⟩ : ∃ k₁, k = k₁ + 1 := ⟨k - 1, by omega⟩
              have hmem₃ : ((i + 1) + k₁, q) ∈
                  (seqPublish o (i + 1) (some id) rest).calls := by
                have harith : i + (k₁ + 1) = (i + 1) + k₁ := by omega
                rwa [harith] at hmem₂
              obtain ⟨hz, hs⟩ := ih (i + 1) (some id) k₁ q hmem₃
              refine ⟨fun h0 => absurd h0 (by omega), ?_⟩
              intro k₂ hk
              have hkk : k₂ = k₁ := by omega
              subst hkk
              cases k₂ with
              | zero => exact ⟨⟨.posted, some id, rt⟩, by simp, hz rfl⟩
              | succ k₃ =>
                  obtain ⟨m₂, hm₂, hq⟩ := hs k₃ rfl
                  exact ⟨m₂, by simpa using hm₂, hq⟩
        | error msg =>
            rw [seqPublish_cons_error o i rt m rest msg hm ho] at hmem ⊢
            rcases List.mem_cons.mp hmem with heq | hmem₂
            · obtain ⟨hp, hq⟩ := Prod.mk.injEq _ _ _ _ ▸ heq
              have hk0 : k = 0 := by omega
              subst hk0
              exact ⟨fun _ => hq, fun k₂ hk => absurd hk (by omega)⟩
            · cases hmem₂

/-- C2: a thread publish run skips members already posted, attempts the
remaining members in strictly increasing position order starting at the
first unposted position (so a retry of a partial_failed thread resumes
there, not at position 0), passes each attempted member the previous
member's external id as its reply-to reference (none at position 0), and on
a position whose publish errors attempts no later position in that run,
leaving the thread partial_failed. -/
theorem post_thread_resume_and_stop_on_error (o o₂ : Nat → Except String String)
    (ms : List Member) :
    (∀ k m, ms[k]? = some m → m.status = .posted →
        k ∉ ((post_thread o ms).calls.map Prod.fst))
    ∧ List.Chain' (· < ·) ((post_thread o ms).calls.map Prod.fst)
    ∧ ((post_thread o ms).calls.head? =
        (firstUnposted ms).map (fun k => (k, resumeReplyTo none ms)))
    ∧ (∀ p q msg, (p, q) ∈ (post_thread o ms).calls → o p = .error msg →
        (post_thread o ms).status = .partial_failed ∧
          ∀ p₂ ∈ ((post_thread o ms).calls.map Prod.fst), p₂ ≤ p)
    ∧ (∀ q, (0, q) ∈ (post_thread o ms).calls → q = none)
    ∧ (∀ k₂ q, (k₂ + 1, q) ∈ (post_thread o ms).calls →
        ∃ m, (post_thread o ms).members[k₂]? = some m ∧ q = m.tweet_id)
    ∧ ((post_thread o₂ (post_thread o ms).members).calls.head? =
        (firstUnposted (post_thread o ms).members).map
          (fun k => (k, resumeReplyTo none (post_thread o ms).members))) := by
  have hcalls : (post_thread o ms).calls = (seqPublish o 0 none ms).calls := rfl
  have hmembers : (post_thread o ms).members = (seqPublish o 0 none ms).members := rfl
  refine ⟨?_, ?_, ?_, ?_, ?_, ?_, ?_⟩
  · intro k m hk hp hmem
    rw [hcalls] at hmem
    obtain ⟨⟨p, q⟩, hmemc, hfst⟩ := List.mem_map.mp hmem
    obtain ⟨k₂, m₂, hk₂, hs₂, hpk⟩ := seqPublish_calls_shape o ms 0 none p q hmemc
    have hkk : k₂ = k := by
      simp only [Prod.fst] at hfst
      omega
    subst hkk
    rw [hk] at hk₂
    injection hk₂ with hmm
    exact hs₂ (hmm ▸ hp)
  · rw [hcalls]
    exact (seqPublish_calls_lb_sorted o ms 0 none).2
  · rw [hcalls, seqPublish_head_call o ms 0 none]
    cases hfu : firstUnposted ms with
    | none => simp
    | some k => simp
  · intro p q msg hmem herr
    rw [hcalls] at hmem ⊢
    obtain ⟨hok, hle⟩ := seqPublish_stop_on_error o ms 0 none p q msg hmem herr
    refine ⟨?_, hle⟩
    simp [post_thread, hok]
  · intro q hmem
    rw [hcalls] at hmem
    exact (seqPublish_call_replyTo o ms 0 none 0 q hmem).1 rfl
  · intro k₂ q hmem
    rw [hcalls] at hmem
    have hmem₂ : ((0 + (k₂ + 1) : Nat), q) ∈ (seqPublish o 0 none ms).calls := by
      simpa using hmem
    rw [hmembers]
    exact (seqPublish_call_replyTo o ms 0 none (k₂ + 1) q hmem₂).2 k₂ rfl
  · have hcalls₂ : (post_thread o₂ (post_thread o ms).members).calls =
        (seqPublish o₂ 0 none (post_thread o ms).members).calls := rfl
    rw [hcalls₂, seqPublish_head_call o₂ (post_thread o ms).members 0 none]
    cases hfu : firstUnposted (post_thread o ms).members with
    | none => simp
    | some k => simp

end Cleo
